import Mathlib

/-!
Verification of the stock-ledger module `src/inventory_system.py`.

The program keeps one process-wide dictionary `STOCK_DATA` mapping item
names to integer quantities and operates on it with `add_item`,
`remove_item`, `get_qty`, `check_low_items`, `load_data` and `save_data`.
The embedding below models the dictionary as an insertion-ordered
association list (Python dicts preserve insertion order), dynamically
typed Python and JSON values as the inductive type `Jv`, and the result
of opening and JSON-parsing a file as `FileContent`.  Logging calls and
the `logs` list parameter of `add_item` carry no ledger state and are not
modelled; `print_data` and `main` are display glue outside the claims.
-/

/-- Python and JSON values, covering every value `json.load` can produce
for the files this module handles and every argument a caller can pass
for the dynamically typed parameters of `add_item`.  JSON numbers are
modelled as integers, the value domain of this module. -/
inductive Jv where
  | jnull : Jv
  | jbool : Bool → Jv
  | jnum : Int → Jv
  | jstr : String → Jv
  | jarr : List Jv → Jv
  | jobj : List (String × Jv) → Jv

/-- Outcome of `open(file)` followed by `json.load`: the file may be
absent (`FileNotFoundError`), present but not valid JSON
(`json.JSONDecodeError`), or present with contents parsing to a value. -/
inductive FileContent where
  | absent : FileContent
  | malformed : FileContent
  | found : Jv → FileContent

/-- A file system assigns a content outcome to every path. -/
abbrev FS := String → FileContent

/-- Writing a file: the path now holds the given content. -/
def fsWrite (fs : FS) (file : String) (c : FileContent) : FS :=
  fun p => if p = file then c else fs p

/-- The ledger `STOCK_DATA` in its well-typed form, a Python `dict` from
item name to integer quantity: an insertion-ordered association list. -/
abbrev StockData := List (String × Int)

/-- Python dict lookup: `d[k]` when the key is present, `none` models
`k not in d`. -/
def dget (d : StockData) (k : String) : Option Int :=
  match d with
  | [] => none
  | p :: rest => if p.1 = k then some p.2 else dget rest k

/-- Python dict assignment `d[k] = v`: update the entry in place when the
key is present, otherwise append it at the end (insertion order). -/
def dset (d : StockData) (k : String) (v : Int) : StockData :=
  match d with
  | [] => [(k, v)]
  | p :: rest => if p.1 = k then (k, v) :: rest else p :: dset rest k v

/-- Python `del d[k]`: remove the entry stored for `k`. -/
def ddel (d : StockData) (k : String) : StockData :=
  match d with
  | [] => []
  | p :: rest => if p.1 = k then rest else p :: ddel rest k

/-- Python `isinstance(x, int)` together with reading the integer out:
`bool` is a subclass of `int` in Python, so `True` counts as `1` and
`False` as `0`; every other value is not an integer. -/
def toPyInt : Jv → Option Int
  | Jv.jnum n => some n
  | Jv.jbool b => some (if b then 1 else 0)
  | _ => none

/-- The well-typed ledger seen as the raw Python value it is: a JSON
object with integer values. -/
def toJv (st : StockData) : Jv :=
  Jv.jobj (st.map fun p => (p.1, Jv.jnum p.2))

/-- Embedding of `add_item(item, qty, logs)` (source lines 21 to 45).
The guard `if not item or not isinstance(item, str)` returns early unless
`item` is a nonempty string (the only truthy strings); the guard
`if not isinstance(qty, int) or qty < 0` returns early unless `qty` is a
non-negative integer.  On the validated path the mutation is
`STOCK_DATA[item] = STOCK_DATA.get(item, 0) + qty`.  The function never
raises; the log line and the optional `logs` sink are diagnostics only. -/
def add_item (item : Jv) (qty : Jv) (st : StockData) : StockData :=
  match item with
  | Jv.jstr s =>
      if s = "" then st
      else
        match toPyInt qty with
        | none => st
        | some q => if q < 0 then st else dset st s ((dget st s).getD 0 + q)
  | _ => st

/-- Embedding of `remove_item(item, qty)` (source lines 48 to 78),
returning the success flag and the new ledger.  An absent item or an
invalid quantity fails without mutation.  Otherwise
`STOCK_DATA[item] -= qty` followed by the depletion check
`STOCK_DATA[item] <= 0`, which deletes the item, is folded into first
computing the new value `cur - q`.  The `except KeyError` branch is
unreachable in the single-threaded model and is not represented. -/
def remove_item (item : String) (qty : Jv) (st : StockData) : Bool × StockData :=
  match dget st item with
  | none => (false, st)
  | some cur =>
      match toPyInt qty with
      | none => (false, st)
      | some q =>
          if q < 0 then (false, st)
          else if cur - q ≤ 0 then (true, ddel st item)
          else (true, dset st item (cur - q))

/-- Embedding of `get_qty(item)` (source lines 81 to 94): the stored
quantity, or `0` when the item is absent.  The ledger is not mutated
(the function only reads `STOCK_DATA`). -/
def get_qty (item : String) (st : StockData) : Int :=
  match dget st item with
  | none => 0
  | some q => q

/-- Embedding of `check_low_items(threshold)` (source lines 155 to 169):
start from an empty `result` list and append, in iteration order, every
item name whose quantity is strictly below the threshold.  The ledger is
only read, never mutated. -/
def check_low_items (threshold : Int) (st : StockData) : List String :=
  st.foldl (fun result p => if p.2 < threshold then result ++ [p.1] else result) []

/-- Embedding of `load_data(file)` (source lines 97 to 119) over the raw
state: on a successful parse `STOCK_DATA` is reassigned wholesale to the
parsed value and `True` is returned; on `FileNotFoundError` the ledger is
reset to the empty dict and `False` is returned; on `JSONDecodeError`
only `False` is returned and the ledger keeps its prior value. -/
def load_data (fs : FS) (file : String) (st : Jv) : Bool × Jv :=
  match fs file with
  | FileContent.found v => (true, v)
  | FileContent.absent => (false, Jv.jobj [])
  | FileContent.malformed => (false, st)

/-- Embedding of `save_data(file)` (source lines 122 to 139): on success
the file now holds the JSON serialization of the state, which parses back
to the same value (`json.dump` then `json.load` is the identity on this
value domain), and `True` is returned.  On `IOError` the function returns
`False` and the file is left in an unspecified partial-write state,
modelled by the caller-chosen content `corrupt`. -/
def save_data (st : Jv) (ioError : Bool) (corrupt : FileContent)
    (fs : FS) (file : String) : Bool × FS :=
  if ioError then (false, fsWrite fs file corrupt)
  else (true, fsWrite fs file (FileContent.found st))

/-- A sequence of `add_item` calls with string names and integer
quantities, applied left to right. -/
def runAdds (calls : List (String × Int)) (st : StockData) : StockData :=
  calls.foldl (fun s c => add_item (Jv.jstr c.1) (Jv.jnum c.2) s) st

/-- One operation against the shared ledger, as the reachability claims
range over them: any `add_item` call, any `remove_item` call, or a
successful `load_data` whose file parses to a well-typed ledger value. -/
inductive Step : StockData → StockData → Prop where
  | add : ∀ (item qty : Jv) (st : StockData), Step st (add_item item qty st)
  | remove : ∀ (item : String) (qty : Jv) (st : StockData),
      Step st (remove_item item qty st).2
  | load : ∀ (fs : FS) (file : String) (st st1 : StockData),
      load_data fs file (toJv st) = (true, toJv st1) → Step st st1

/-- Ledger states reachable from the initially empty ledger by add,
remove and successful load operations. -/
def Reachable (st : StockData) : Prop := Relation.ReflTransGen Step [] st

/-- One `add_item` or `remove_item` operation (no load). -/
inductive StepAR : StockData → StockData → Prop where
  | add : ∀ (item qty : Jv) (st : StockData), StepAR st (add_item item qty st)
  | remove : ∀ (item : String) (qty : Jv) (st : StockData),
      StepAR st (remove_item item qty st).2

/-- Ledger states reachable from the initially empty ledger by add and
remove operations alone. -/
def ReachableAR (st : StockData) : Prop := Relation.ReflTransGen StepAR [] st

/-! Association-list lemmas about `dget`, `dset` and `ddel`. -/

theorem dget_mem {d : StockData} {k : String} {v : Int}
    (h : dget d k = some v) : (k, v) ∈ d := by
  induction d with
  | nil => simp [dget] at h
  | cons p rest ih =>
      rw [dget] at h
      by_cases hp : p.1 = k
      · simp only [hp, if_pos rfl] at h
        cases h
        cases p
        simp_all
      · simp only [if_neg hp] at h
        exact List.mem_cons_of_mem _ (ih h)

theorem mem_dset {p : String × Int} {d : StockData} {k : String} {v : Int}
    (h : p ∈ dset d k v) : p = (k, v) ∨ p ∈ d := by
  induction d with
  | nil => simp [dset] at h; simp [h]
  | cons q rest ih =>
      rw [dset] at h
      by_cases hq : q.1 = k
      · simp only [if_pos hq] at h
        rcases List.mem_cons.mp h with h1 | h1
        · exact Or.inl h1
        · exact Or.inr (List.mem_cons_of_mem _ h1)
      · simp only [if_neg hq] at h
        rcases List.mem_cons.mp h with h1 | h1
        · exact Or.inr (h1 ▸ List.mem_cons_self _ _)
        · rcases ih h1 with h2 | h2
          · exact Or.inl h2
          · exact Or.inr (List.mem_cons_of_mem _ h2)

theorem mem_ddel {p : String × Int} {d : StockData} {k : String}
    (h : p ∈ ddel d k) : p ∈ d := by
  induction d with
  | nil => simp [ddel] at h
  | cons q rest ih =>
      rw [ddel] at h
      by_cases hq : q.1 = k
      · simp only [if_pos hq] at h
        exact List.mem_cons_of_mem _ h
      · simp only [if_neg hq] at h
        rcases List.mem_cons.mp h with h1 | h1
        · exact h1 ▸ List.mem_cons_self _ _
        · exact List.mem_cons_of_mem _ (ih h1)

theorem dget_dset_self (d : StockData) (k : String) (v : Int) :
    dget (dset d k v) k = some v := by
  induction d with
  | nil => simp [dset, dget]
  | cons p rest ih =>
      rw [dset]
      by_cases hp : p.1 = k
      · simp [hp, dget]
      · simp [hp, dget, ih]

theorem dget_dset_ne (d : StockData) {k k1 : String} (v : Int) (h : k1 ≠ k) :
    dget (dset d k v) k1 = dget d k1 := by
  have hkk1 : ¬ (k = k1) := fun hk => h hk.symm
  induction d with
  | nil => simp [dset, dget, hkk1]
  | cons p rest ih =>
      rw [dset]
      by_cases hp : p.1 = k
      · simp [if_pos hp, dget, hp, hkk1]
      · simp [if_neg hp, dget, ih]

theorem dget_none_of_not_mem {d : StockData} {k : String}
    (h : k ∉ d.map Prod.fst) : dget d k = none := by
  induction d with
  | nil => simp [dget]
  | cons p rest ih =>
      rw [dget]
      rw [List.map_cons, List.mem_cons] at h
      push_neg at h
      rw [if_neg (fun hp : p.1 = k => h.1 hp.symm)]
      exact ih h.2

theorem dget_ddel_self {d : StockData} (k : String)
    (hnd : (d.map Prod.fst).Nodup) : dget (ddel d k) k = none := by
  induction d with
  | nil => simp [ddel, dget]
  | cons p rest ih =>
      rw [List.map_cons, List.nodup_cons] at hnd
      rw [ddel]
      by_cases hp : p.1 = k
      · simp only [if_pos hp]
        exact dget_none_of_not_mem (hp ▸ hnd.1)
      · simp only [if_neg hp]
        rw [dget]
        simp only [if_neg hp]
        exact ih hnd.2

/-! Claims about `load_data` and `save_data`. -/

/-- C2: if `load` is called on a path whose file exists but whose
contents fail to parse as valid JSON, it returns `False` and the ledger
after the call equals the ledger before the call. -/
theorem C2_load_malformed (fs : FS) (file : String) (st : Jv)
    (h : fs file = FileContent.malformed) :
    load_data fs file st = (false, st) := by
  simp [load_data, h]

theorem C2_load_malformed_witness :
    (fun _ : String => FileContent.malformed) "inventory.json" = FileContent.malformed ∧
    load_data (fun _ => FileContent.malformed) "inventory.json" (toJv [("apple", 7)]) =
      (false, toJv [("apple", 7)]) :=
  ⟨rfl, C2_load_malformed (fun _ => FileContent.malformed) "inventory.json"
    (toJv [("apple", 7)]) rfl⟩

/-- C6: if `load` is called on a path whose file does not exist, it
returns `False` and the ledger after the call is the empty ledger,
whatever it held before. -/
theorem C6_load_missing (fs : FS) (file : String) (st : Jv)
    (h : fs file = FileContent.absent) :
    load_data fs file st = (false, toJv []) := by
  simp [load_data, h, toJv]

theorem C6_load_missing_witness :
    (fun _ : String => FileContent.absent) "inventory.json" = FileContent.absent ∧
    load_data (fun _ => FileContent.absent) "inventory.json" (toJv [("apple", 7)]) =
      (false, toJv []) :=
  ⟨rfl, C6_load_missing (fun _ => FileContent.absent) "inventory.json"
    (toJv [("apple", 7)]) rfl⟩

/-- C10: `load` performs no shape validation.  Whenever the file contents
parse to any JSON value at all, also an array, a string, a number, or an
object with non-integer or negative values, `load` returns `True` and
replaces the ledger wholesale with the parsed value. -/
theorem C10_load_no_validation (fs : FS) (file : String) (st : Jv) (v : Jv)
    (h : fs file = FileContent.found v) :
    load_data fs file st = (true, v) := by
  simp [load_data, h]

theorem C10_load_no_validation_witness :
    (fun _ : String => FileContent.found (Jv.jarr [Jv.jnum (-3), Jv.jnull]))
        "inventory.json" = FileContent.found (Jv.jarr [Jv.jnum (-3), Jv.jnull]) ∧
    load_data (fun _ => FileContent.found (Jv.jarr [Jv.jnum (-3), Jv.jnull]))
        "inventory.json" (toJv [("apple", 7)]) =
      (true, Jv.jarr [Jv.jnum (-3), Jv.jnull]) :=
  ⟨rfl, C10_load_no_validation (fun _ => FileContent.found (Jv.jarr [Jv.jnum (-3), Jv.jnull]))
    "inventory.json" (toJv [("apple", 7)]) (Jv.jarr [Jv.jnum (-3), Jv.jnull]) rfl⟩

/-- C4: round trip.  For every well-typed ledger, a successful `save`
followed by resetting the ledger to empty and a `load` of the same path
succeeds and restores exactly the pre-save ledger value, same keys and
same values. -/
theorem C4_roundtrip (st : StockData) (fs : FS) (file : String)
    (ioError : Bool) (corrupt : FileContent)
    (hsave : (save_data (toJv st) ioError corrupt fs file).1 = true) :
    load_data (save_data (toJv st) ioError corrupt fs file).2 file (toJv []) =
      (true, toJv st) := by
  cases ioError with
  | true => simp [save_data] at hsave
  | false => simp [save_data, load_data, fsWrite]

theorem C4_roundtrip_witness :
    (save_data (toJv [("apple", 10), ("kiwi", 3)]) false FileContent.absent
        (fun _ => FileContent.absent) "inventory.json").1 = true ∧
    load_data (save_data (toJv [("apple", 10), ("kiwi", 3)]) false FileContent.absent
        (fun _ => FileContent.absent) "inventory.json").2 "inventory.json" (toJv []) =
      (true, toJv [("apple", 10), ("kiwi", 3)]) :=
  ⟨rfl, C4_roundtrip [("apple", 10), ("kiwi", 3)] (fun _ => FileContent.absent)
    "inventory.json" false FileContent.absent rfl⟩

/-! Claims about `add_item` and `remove_item` error handling. -/

/-- C7: calling `add` with an invalid argument, an empty or non-string
item, or a negative or non-integer quantity, leaves the ledger exactly
unchanged.  The function is total, so it returns normally and never
raises to the caller. -/
theorem C7_invalid_add_unchanged (item qty : Jv) (st : StockData)
    (h : (∀ s, item = Jv.jstr s → s = "") ∨ (∀ n, toPyInt qty = some n → n < 0)) :
    add_item item qty st = st := by
  cases item with
  | jstr s =>
      by_cases hs : s = ""
      · simp [add_item, hs]
      · rcases h with h | h
        · exact absurd (h s rfl) hs
        · cases hq : toPyInt qty with
          | none => simp [add_item, hs, hq]
          | some n => simp [add_item, hs, hq, h n hq]
  | jnull => rfl
  | jbool b => rfl
  | jnum n => rfl
  | jarr l => rfl
  | jobj l => rfl

theorem C7_invalid_add_unchanged_witness :
    add_item (Jv.jnum 5) (Jv.jnum 3) [("apple", 7)] = [("apple", 7)] :=
  C7_invalid_add_unchanged (Jv.jnum 5) (Jv.jnum 3) [("apple", 7)]
    (Or.inl (fun _ hs => nomatch hs))

/-- C8: `remove` returns `False` and leaves the ledger unchanged when the
item is absent from the ledger, and likewise when the quantity is
negative or not an integer (the quantity check rejects independently of
presence, which covers the present-item case of the claim). -/
theorem C8_remove_failure (item : String) (qty : Jv) (st : StockData)
    (h : dget st item = none ∨ (∀ n, toPyInt qty = some n → n < 0)) :
    remove_item item qty st = (false, st) := by
  cases hg : dget st item with
  | none => simp [remove_item, hg]
  | some cur =>
      rcases h with h | h
      · rw [h] at hg
        cases hg
      · cases hq : toPyInt qty with
        | none => simp [remove_item, hg, hq]
        | some n => simp [remove_item, hg, hq, h n hq]

theorem C8_remove_failure_witness :
    remove_item "x" (Jv.jnum 1) [] = (false, []) :=
  C8_remove_failure "x" (Jv.jnum 1) [] (Or.inl rfl)

/-- C3: on a ledger holding `item` with quantity `q > 0` and any
non-negative integer `qty`, `remove` returns `True`; when `qty` reaches
the stock the item is deleted outright, otherwise the stored quantity
becomes the positive difference.  Removal never fails merely because the
requested quantity exceeds current stock. -/
theorem C3_remove_always_succeeds (st : StockData) (item : String) (q qty : Int)
    (hnd : (st.map Prod.fst).Nodup)
    (hq : dget st item = some q) (_hpos : 0 < q) (hqty : 0 ≤ qty) :
    (remove_item item (Jv.jnum qty) st).1 = true ∧
    (q ≤ qty → dget (remove_item item (Jv.jnum qty) st).2 item = none) ∧
    (qty < q → dget (remove_item item (Jv.jnum qty) st).2 item = some (q - qty) ∧
      0 < q - qty) := by
  have hq0 : ¬ qty < 0 := not_lt.mpr hqty
  by_cases hd : q - qty ≤ 0
  · have he : remove_item item (Jv.jnum qty) st = (true, ddel st item) := by
      simp [remove_item, hq, toPyInt, hq0, hd]
    rw [he]
    exact ⟨rfl, fun _ => dget_ddel_self item hnd, fun hlt => absurd hd (by omega)⟩
  · have he : remove_item item (Jv.jnum qty) st = (true, dset st item (q - qty)) := by
      simp [remove_item, hq, toPyInt, hq0, hd]
    rw [he]
    exact ⟨rfl, fun hle => absurd (show q - qty ≤ 0 by omega) hd,
      fun _ => ⟨dget_dset_self st item (q - qty), by omega⟩⟩

theorem C3_remove_always_succeeds_witness :
    (remove_item "apple" (Jv.jnum 3) [("apple", 10)]).1 = true ∧
    dget (remove_item "apple" (Jv.jnum 3) [("apple", 10)]).2 "apple" = some 7 := by
  have h := C3_remove_always_succeeds [("apple", 10)] "apple" 10 3
    (by decide) (by decide) (by decide) (by decide)
  refine ⟨h.1, ?_⟩
  rw [(h.2.2 (by decide)).1]
  norm_num

/-! Claims about `get_qty` and `check_low_items`. -/

theorem get_qty_eq (name : String) (st : StockData) :
    get_qty name st = (dget st name).getD 0 := by
  cases h : dget st name <;> simp [get_qty, h]

theorem get_qty_add_item (n : String) (hn : n ≠ "") {q : Int} (hq : 0 ≤ q)
    (name : String) (st : StockData) :
    get_qty name (add_item (Jv.jstr n) (Jv.jnum q) st) =
      get_qty name st + (if n = name then q else 0) := by
  have hq0 : ¬ q < 0 := not_lt.mpr hq
  have he : add_item (Jv.jstr n) (Jv.jnum q) st =
      dset st n ((dget st n).getD 0 + q) := by
    simp [add_item, hn, toPyInt, hq0]
  rw [he]
  by_cases hnm : n = name
  · subst hnm
    simp [get_qty_eq, dget_dset_self]
  · simp [get_qty_eq, dget_dset_ne st ((dget st n).getD 0 + q)
      (fun hc => hnm hc.symm), hnm]

theorem runAdds_get_qty (calls : List (String × Int))
    (hvalid : ∀ c ∈ calls, c.1 ≠ "" ∧ 0 ≤ c.2) (name : String) (st : StockData) :
    get_qty name (runAdds calls st) =
      get_qty name st + ((calls.filter fun c => c.1 = name).map Prod.snd).sum := by
  induction calls generalizing st with
  | nil => simp [runAdds]
  | cons c rest ih =>
      have hc := hvalid c (List.mem_cons_self _ _)
      have hrest : ∀ x ∈ rest, x.1 ≠ "" ∧ 0 ≤ x.2 :=
        fun x hx => hvalid x (List.mem_cons_of_mem _ hx)
      rw [show runAdds (c :: rest) st =
        runAdds rest (add_item (Jv.jstr c.1) (Jv.jnum c.2) st) from rfl]
      rw [ih hrest, get_qty_add_item c.1 hc.1 hc.2 name st, List.filter_cons]
      by_cases hcn : c.1 = name
      · simp [hcn]
        omega
      · simp [hcn]

/-- C5: starting from the empty ledger, after any finite sequence of
valid `add` calls (nonempty string name, non-negative integer quantity),
`get_qty name` returns the sum of all quantities added under that name;
a name never added gives an empty filtered list, hence 0.  `get_qty`
itself takes the ledger as read-only input and returns only an integer,
so it cannot mutate the ledger. -/
theorem C5_cumulative_adds (calls : List (String × Int))
    (hvalid : ∀ c ∈ calls, c.1 ≠ "" ∧ 0 ≤ c.2) (name : String) :
    get_qty name (runAdds calls []) =
      ((calls.filter fun c => c.1 = name).map Prod.snd).sum := by
  rw [runAdds_get_qty calls hvalid name []]
  simp [get_qty, dget]

theorem C5_cumulative_adds_witness :
    get_qty "apple" (runAdds [("apple", 10), ("banana", 5), ("apple", 5)] []) = 15 ∧
    get_qty "kiwi" (runAdds [("apple", 10), ("banana", 5), ("apple", 5)] []) = 0 := by
  constructor
  · rw [C5_cumulative_adds [("apple", 10), ("banana", 5), ("apple", 5)]
      (by decide) "apple"]
    decide
  · rw [C5_cumulative_adds [("apple", 10), ("banana", 5), ("apple", 5)]
      (by decide) "kiwi"]
    decide

theorem check_low_items_foldl (threshold : Int) (st : StockData) (acc : List String) :
    st.foldl (fun result p => if p.2 < threshold then result ++ [p.1] else result) acc =
      acc ++ (st.filter fun p => p.2 < threshold).map Prod.fst := by
  induction st generalizing acc with
  | nil => simp
  | cons p rest ih =>
      rw [List.foldl_cons, List.filter_cons]
      by_cases hp : p.2 < threshold
      · simp [hp, ih]
      · simp [hp, ih]

/-- C9: `check_low_items` returns exactly the names of the items whose
quantity is strictly below the threshold, no others, in the iteration
(insertion) order of the ledger, as a materialized `List`; on the empty
ledger it returns the empty list.  The ledger is passed read-only and is
not part of the result, so the call cannot mutate it. -/
theorem C9_check_low_items (threshold : Int) (st : StockData) :
    check_low_items threshold st = (st.filter fun p => p.2 < threshold).map Prod.fst ∧
    (∀ name, name ∈ check_low_items threshold st ↔
      ∃ q, (name, q) ∈ st ∧ q < threshold) ∧
    check_low_items threshold [] = [] := by
  have heq : check_low_items threshold st =
      (st.filter fun p => p.2 < threshold).map Prod.fst := by
    rw [check_low_items, check_low_items_foldl threshold st []]
    simp
  refine ⟨heq, fun name => ?_, rfl⟩
  rw [heq]
  constructor
  · intro hmem
    rcases List.mem_map.mp hmem with ⟨p, hp, hfst⟩
    rcases List.mem_filter.mp hp with ⟨hpin, hplt⟩
    refine ⟨p.2, ?_, of_decide_eq_true hplt⟩
    cases p
    cases hfst
    exact hpin
  · rintro ⟨q, hin, hlt⟩
    exact List.mem_map.mpr ⟨(name, q), List.mem_filter.mpr ⟨hin, decide_eq_true hlt⟩, rfl⟩

/-! Claim C1: the positivity invariant over reachable states. -/

theorem add_item_nonneg {st : StockData} (hst : ∀ p ∈ st, 0 ≤ p.2)
    (item qty : Jv) : ∀ p ∈ add_item item qty st, 0 ≤ p.2 := by
  cases item with
  | jstr s =>
      by_cases hs : s = ""
      · simpa [add_item, hs] using hst
      · cases hq : toPyInt qty with
        | none => simpa [add_item, hs, hq] using hst
        | some q =>
            by_cases hq0 : q < 0
            · simpa [add_item, hs, hq, hq0] using hst
            · intro p hp
              have he : add_item (Jv.jstr s) qty st =
                  dset st s ((dget st s).getD 0 + q) := by
                simp [add_item, hs, hq, hq0]
              rw [he] at hp
              rcases mem_dset hp with h1 | h1
              · subst h1
                show 0 ≤ (dget st s).getD 0 + q
                have hd : 0 ≤ (dget st s).getD 0 := by
                  cases hdg : dget st s with
                  | none => simp
                  | some x => simpa using hst _ (dget_mem hdg)
                omega
              · exact hst p h1
  | jnull => simpa [add_item] using hst
  | jbool b => simpa [add_item] using hst
  | jnum n => simpa [add_item] using hst
  | jarr l => simpa [add_item] using hst
  | jobj l => simpa [add_item] using hst

theorem remove_item_nonneg {st : StockData} (hst : ∀ p ∈ st, 0 ≤ p.2)
    (item : String) (qty : Jv) : ∀ p ∈ (remove_item item qty st).2, 0 ≤ p.2 := by
  cases hg : dget st item with
  | none => simpa [remove_item, hg] using hst
  | some cur =>
      cases hq : toPyInt qty with
      | none => simpa [remove_item, hg, hq] using hst
      | some q =>
          by_cases hq0 : q < 0
          · simpa [remove_item, hg, hq, hq0] using hst
          · by_cases hd : cur - q ≤ 0
            · intro p hp
              have he : (remove_item item qty st).2 = ddel st item := by
                simp [remove_item, hg, hq, hq0, hd]
              rw [he] at hp
              exact hst p (mem_ddel hp)
            · intro p hp
              have he : (remove_item item qty st).2 = dset st item (cur - q) := by
                simp [remove_item, hg, hq, hq0, hd]
              rw [he] at hp
              rcases mem_dset hp with h1 | h1
              · subst h1
                show 0 ≤ cur - q
                omega
              · exact hst p h1

/-- C1 as stated is false on the code.  First, `add_item` accepts the
quantity 0 and stores it for an absent item, so the state reached from
the empty ledger by the single call `add_item("x", 0)` holds the
non-positive quantity 0.  Second, a successful `load` puts the parsed
file contents in the ledger unvalidated, so the state holding the
negative quantity -1 is also reachable. -/
theorem C1_counterexample :
    (¬ ∀ st : StockData, Reachable st → ∀ p ∈ st, 0 < p.2) ∧
    Reachable [("a", -1)] := by
  have hadd : Step [] [("x", 0)] := by
    have h := Step.add (Jv.jstr "x") (Jv.jnum 0) []
    rw [show add_item (Jv.jstr "x") (Jv.jnum 0) [] = [("x", 0)] from by decide] at h
    exact h
  have hload : Step [] [("a", -1)] :=
    Step.load (fun _ => FileContent.found (toJv [("a", -1)])) "inventory.json"
      [] [("a", -1)] rfl
  refine ⟨fun h => ?_, Relation.ReflTransGen.single hload⟩
  have h0 : Reachable [("x", 0)] := Relation.ReflTransGen.single hadd
  exact lt_irrefl 0 (h _ h0 ("x", 0) (List.mem_singleton.mpr rfl))

/-- C1 amended: restricted to add and remove operations, every ledger
state reachable from the empty ledger stores only non-negative
quantities.  Strict positivity does not hold, since adding quantity 0 of
an absent item stores 0, and successful loads must be excluded, since
they install arbitrary parsed values. -/
theorem C1_nonneg_invariant (st : StockData) (h : ReachableAR st) :
    ∀ p ∈ st, 0 ≤ p.2 := by
  induction h with
  | refl => intro p hp; cases hp
  | tail _ hs ih =>
      cases hs with
      | add item qty s => exact add_item_nonneg ih item qty
      | remove item qty s => exact remove_item_nonneg ih item qty

theorem C1_nonneg_invariant_witness :
    ReachableAR [("apple", 10)] ∧ (0 : Int) ≤ 10 := by
  have hs : StepAR [] [("apple", 10)] := by
    have h := StepAR.add (Jv.jstr "apple") (Jv.jnum 10) []
    rw [show add_item (Jv.jstr "apple") (Jv.jnum 10) [] = [("apple", 10)]
      from by decide] at h
    exact h
  have hr : ReachableAR [("apple", 10)] := Relation.ReflTransGen.single hs
  exact ⟨hr, C1_nonneg_invariant _ hr ("apple", 10) (List.mem_singleton.mpr rfl)⟩
